import Mathlib

/-!
Shallow embedding of Cryptkeeper/watermarker (src/main.go), a Go tool that
discovers image files under a directory, parses page numbers from their
filenames, concurrently transforms each page through external ImageMagick
invocations, bundles the transformed pages with img2pdf into one PDF, and
removes the temporary files.  Each definition notes the source lines of
src/main.go that it embeds.  External processes and the filesystem are
modelled by explicit oracle inputs; the library sort from
golang.org/x/exp/slices is modelled by its documented contract, since its
implementation is not part of this repository.
-/

namespace Watermarker

/-! Page-number extraction (src/main.go lines 149 and 159-179).

The pattern compiled at line 149 is the regexp
    .+(\d+)\.?
applied by Go's regexp.FindStringSubmatch, which uses leftmost-first
(Perl-style backtracking) semantics: the match starts as early as possible
in the subject, and among the matches at that start the one a backtracking
search finds first wins, with greedy quantifiers trying longer repetitions
first.  The matcher below is specialized to this one pattern. -/

/-- The character class d of the Go regexp: ASCII decimal digits, i.e.
code points 48 ('0') through 57 ('9'). -/
def isDigitChar (c : Char) : Bool := decide (48 ≤ c.toNat ∧ c.toNat ≤ 57)

/-- The dot of the Go regexp: any character except newline. -/
def isDotChar (c : Char) : Bool := c != '\n'

/-- Backtracking match of the tail of the pattern after its first mandatory
character: on the remaining subject this is the sub-pattern consisting of a
greedy star of dot, then the capture group of one-or-more digits, then an
optional literal period.  The greedy star is tried longest-first, so the
recursive call (consuming the head into the star) is preferred; only when it
fails does the digit group try to start at the current position, capturing a
maximal digit run (the optional trailing period always succeeds and does not
affect the capture).  Returns the text of capture group 1. -/
def starMatch : List Char → Option (List Char)
  | [] => none
  | c :: rest =>
      match (if isDotChar c then starMatch rest else none) with
      | some cap => some cap
      | none =>
          if isDigitChar c then some ((c :: rest).takeWhile isDigitChar) else none

/-- Match of the whole pattern anchored at the current position: the leading
one-or-more-dots quantifier must consume at least one character (greedily),
after which the rest of the pattern behaves as in starMatch. -/
def plusMatch : List Char → Option (List Char)
  | [] => none
  | c :: rest => if isDotChar c then starMatch rest else none

/-- pageNumberRegex.FindStringSubmatch (line 163): leftmost-first search for
the pattern, returning the text of capture group 1; none models the nil
result returned by Go when the pattern does not match anywhere. -/
def findStringSubmatch : List Char → Option (List Char)
  | [] => none
  | c :: rest =>
      match plusMatch (c :: rest) with
      | some cap => some cap
      | none => findStringSubmatch rest

/-- Decimal value of a list of digit characters (most significant first). -/
def digitsToNat (l : List Char) : Nat :=
  l.foldl (fun a c => a * 10 + (c.toNat - 48)) 0

/-- strconv.Atoi (line 168), modelled on the only inputs it receives here
(texts of capture group 1, hence runs of ASCII digits): it fails on an empty
input, on any non-digit character, and on values outside the signed 64-bit
range; otherwise it returns the decimal value. -/
def atoiDigits (l : List Char) : Option Nat :=
  if l.isEmpty || !l.all isDigitChar then none
  else if digitsToNat l < 2 ^ 63 then some (digitsToNat l) else none

/-- Outcome of the per-filename body of the ingest loop (lines 159-171):
ok n means a page record with number n is appended; errNoPageNumber is the
explicit error return naming the filename; errAtoi is the error return from
strconv.Atoi; panicNilSlice is the runtime index-out-of-range panic raised
by the expression matches[1] when FindStringSubmatch returned nil. -/
inductive IndexOutcome
  | ok (n : Nat)
  | errNoPageNumber
  | errAtoi
  | panicNilSlice
deriving DecidableEq

/-- The per-filename page-number extraction of ingestPages (lines 162-171):
matches := pageNumberRegex.FindStringSubmatch(filename); the guard
len(matches[1]) == 0; then strconv.Atoi(matches[1]).  When matches is nil
the subscript matches[1] panics before the guard can run. -/
def indexFilename (filename : List Char) : IndexOutcome :=
  match findStringSubmatch filename with
  | none => .panicNilSlice
  | some cap =>
      if cap.length = 0 then .errNoPageNumber
      else
        match atoiDigits cap with
        | none => .errAtoi
        | some n => .ok n

/-- The page number extracted for a filename, when the loop body produces a
page record for it. -/
def pageNumberOf (filename : List Char) : Option Nat :=
  match indexFilename filename with
  | .ok n => some n
  | _ => none

/-- The last digit character occurring in a list — equivalently, the final
digit of the last run of consecutive digits; none when no digit occurs.  The
recursion prefers a digit found further right, mirroring the greedy star of
the matcher. -/
def lastDigit : List Char → Option Char
  | [] => none
  | c :: rest =>
      match lastDigit rest with
      | some d => some d
      | none => if isDigitChar c then some c else none

/-! The page data model and the ingestion loop (src/main.go 78-82, 152-187). -/

/-- The page struct (lines 78-82): a matched file with its parsed page
number; tmpPath is empty until createTempFile assigns it. -/
structure Page where
  filepath : String
  number : Int
  tmpPath : String
deriving DecidableEq

/-- filepath.Base on the inputs exercised here (paths produced by the
directory walk, which never end in a separator): the last slash-separated
element of the path. -/
def filepathBase (path : String) : String :=
  String.mk ((path.toList.reverse.takeWhile (fun c => c != '/')).reverse)

/-- Result of the ingestion loop of ingestPages before the final sort (lines
157-179): the accumulated page records in discovery order, an error return,
or a runtime panic.  errorReturn carries the filename interpolated into the
error text "no page number found in filename". -/
inductive IngestResult
  | ok (pages : List Page)
  | errorReturn (filename : String)
  | errorAtoi
  | panicked
deriving DecidableEq

/-- The ingestion loop of ingestPages (lines 159-179) over the paths
received from the ingest channel, with accumulator acc: each path's base
name goes through the page-number extraction; on success a page record with
empty tmpPath is appended; any failure aborts the whole loop at once. -/
def ingestLoop : List String → List Page → IngestResult
  | [], acc => .ok acc
  | path :: rest, acc =>
      match indexFilename (filepathBase path).toList with
      | .ok n => ingestLoop rest (acc ++ [⟨path, (n : Int), ""⟩])
      | .errNoPageNumber => .errorReturn (filepathBase path)
      | .errAtoi => .errorAtoi
      | .panicNilSlice => .panicked

/-! The sort at the end of ingestPages (lines 181-184) calls
golang.org/x/exp/slices.SortFunc, library code outside this repository.
Its documentation states that it sorts the slice in ascending order as
determined by the comparator and that the sort "is not guaranteed to be
stable".  It is therefore modelled by that contract, as a relation between
the input slice and the permitted output slices. -/

/-- Two's-complement wraparound of a signed 64-bit value, as in Go int
arithmetic. -/
def wrap64 (z : Int) : Int := (z + 2 ^ 63) % 2 ^ 64 - 2 ^ 63

/-- The comparator literal passed to slices.SortFunc (lines 182-184):
func(i, j page) int returning i.number - j.number with Go int
subtraction. -/
def pageCmp (i j : Page) : Int := wrap64 (i.number - j.number)

/-- Contract of slices.SortFunc for comparator cmp: the output is a
permutation of the input whose adjacent elements are non-descending under
cmp.  Every such permutation is a permitted result; stability is not part
of the contract. -/
def SortFuncPost (cmp : Page → Page → Int) (input output : List Page) : Prop :=
  input.Perm output ∧ output.Chain' (fun a b => cmp a b ≤ 0)

/-- Stability in the sense of the spec (§3, §4.3): for every page number the
subsequence of pages carrying that number is the same before and after
sorting, i.e. ties keep their relative discovery order. -/
def PreservesEqualOrder (input output : List Page) : Prop :=
  ∀ n : Int, input.filter (fun p => p.number == n) =
    output.filter (fun p => p.number == n)

/-! The per-page transform (src/main.go 86-147) and its dispatcher
(191-211).  The external processes and the filesystem are modelled by an
explicit oracle per page. -/

/-- Run configuration read from the global flag variables (lines 17-40). -/
structure Config where
  watermarkFilePath : String
  watermarkImageScale : Int
  outputDimensionHeight : Int
  outputDimensionWidth : Int
  outputFilePath : String
  workDirectory : String
deriving DecidableEq

/-- Oracle for the external effects of one page's transform: the name
os.CreateTemp generates (none models a creation failure), and whether the
convert and magick child processes exit successfully. -/
structure TransformEnv where
  tempFile : Option String
  convertOk : Bool
  watermarkOk : Bool
deriving DecidableEq

/-- p.createTempFile() (lines 86-101): on success the generated name is
assigned to p.tmpPath and nil is returned; on failure the error is returned
with p unchanged.  The Bool is the success flag (true = nil error). -/
def createTempFile (env : TransformEnv) (p : Page) : Page × Bool :=
  match env.tempFile with
  | some name => ({ p with tmpPath := name }, true)
  | none => (p, false)

/-- Observable result of p.generate() (lines 136-147): the final page
record, whether an error was returned, and which external invocations were
attempted. -/
structure GenerateTrace where
  page : Page
  errored : Bool
  convertInvoked : Bool
  watermarkInvoked : Bool
deriving DecidableEq

/-- p.generate() (lines 136-147): createTempFile, then convert, then — only
when len(watermarkFilePath) > 0 — watermark; the first failing step's error
is returned and later steps are not attempted. -/
def generate (cfg : Config) (env : TransformEnv) (p : Page) : GenerateTrace :=
  match createTempFile env p with
  | (p1, false) => ⟨p1, true, false, false⟩
  | (p1, true) =>
      if !env.convertOk then ⟨p1, true, true, false⟩
      else if 0 < cfg.watermarkFilePath.length then
        if !env.watermarkOk then ⟨p1, true, true, true⟩
        else ⟨p1, false, true, true⟩
      else ⟨p1, false, true, false⟩

/-- Log line printed by the per-page goroutine (lines 200-204). -/
inductive PageLog
  | errorProcessing (sourcePath : String)
  | processed (sourcePath : String)
deriving DecidableEq

/-- Body of the goroutine spawned for one page (lines 199-207): run
generate on the page and log the outcome tagged with the page's source
path. -/
def runPageTask (cfg : Config) (env : TransformEnv) (p : Page) :
    Page × PageLog :=
  let t := generate cfg env p
  (t.page, if t.errored then .errorProcessing p.filepath
    else .processed p.filepath)

/-- genProcessedPages (lines 191-211), data view: pages[i] is rewritten by
its own task using only pages[i] and that task's external outcomes envs[i].
The interleaving of the tasks and the WaitGroup barrier are modelled
separately by DispatchStep below. -/
def genProcessedPages (cfg : Config) (envs : List TransformEnv)
    (pages : List Page) : List (Page × PageLog) :=
  List.zipWith (runPageTask cfg) envs pages

/-! The bundler and the cleanup tail of main (src/main.go 214-261). -/

/-- Argument list of the img2pdf invocation built by bundlePages (lines
217-224): --output, the output path, then every page's tmpPath in slice
order. -/
def bundleCmdArgs (outputFilePath : String) (pages : List Page) :
    List String :=
  "--output" :: outputFilePath :: pages.map (fun p => p.tmpPath)

/-- Behaviours the bundling step could exhibit: invoking the external
assembly once with an argument list, or failing the run before any
invocation (the behaviour §7 of the spec mandates when a workingPath is
missing). -/
inductive BundleResult
  | invoked (args : List String)
  | failedBeforeInvoke
deriving DecidableEq

/-- bundlePages (lines 214-229): unconditionally collects files[i] =
pages[i].tmpPath and invokes img2pdf once on the whole list; no emptiness
or completeness check precedes the invocation. -/
def bundlePages (outputFilePath : String) (pages : List Page) :
    BundleResult :=
  .invoked (bundleCmdArgs outputFilePath pages)

/-- The tail of main (lines 250-260): when bundlePages returns an error
main prints it and returns; otherwise os.Remove(p.tmpPath) runs for every
page, with its error discarded.  bundleErrored is the err != nil outcome of
the img2pdf invocation; the result is the list of paths passed to
os.Remove. -/
def mainCleanupRemovals (bundleErrored : Bool) (pages : List Page) :
    List String :=
  if bundleErrored then [] else pages.map (fun p => p.tmpPath)

/-! Decimal rendering, as performed by the percent-d verbs of the
fmt.Sprintf calls (src/main.go 105, 118). -/

/-- Decimal digit character for a value in 0..9. -/
def digitChar : Nat → Char
  | 0 => '0' | 1 => '1' | 2 => '2' | 3 => '3' | 4 => '4'
  | 5 => '5' | 6 => '6' | 7 => '7' | 8 => '8' | _ => '9'

/-- Accumulator pass of decimal rendering: most significant digit first. -/
def natDecimalAux (n : Nat) (acc : List Char) : List Char :=
  if n < 10 then digitChar n :: acc
  else natDecimalAux (n / 10) (digitChar (n % 10) :: acc)
termination_by n
decreasing_by exact Nat.div_lt_self (by omega) (by omega)

/-- Base-10 rendering of a natural number. -/
def natDecimal (n : Nat) : List Char := natDecimalAux n []

/-- Base-10 rendering of a Go int (percent-d): sign, then digits. -/
def intDecimal (i : Int) : List Char :=
  if i < 0 then '-' :: natDecimal i.natAbs else natDecimal i.toNat

/-! The watermark invocation (src/main.go 114-132) and a parser for the two
computed arguments, used to interpret the invocation through the external
image-service semantics. -/

/-- The literal text before the width divisor in the option:WMSIZE fx
expression. -/
def fxPre1 : List Char := ['%', '[', 'f', 'x', ':', 'w', '/']

/-- The literal text between the width divisor and the height divisor in
the option:WMSIZE fx expression. -/
def fxMid : List Char := [']', 'x', '%', '[', 'f', 'x', ':', 'h', '/']

/-- The option:WMSIZE expression built by fmt.Sprintf at line 118 for scale
factor s: an fx request for width w/s and height h/s. -/
def wmSizeFx (scale : Int) : String :=
  String.mk (fxPre1 ++ intDecimal scale ++ fxMid ++ intDecimal scale ++ [']'])

/-- The magick argument list built by p.watermark() (lines 114-132). -/
def watermarkCmdArgs (cfg : Config) (tmpPath : String) : List String :=
  [tmpPath, "-colorspace", "sRGB",
   "-set", "option:WMSIZE", wmSizeFx cfg.watermarkImageScale,
   "(", cfg.watermarkFilePath, "-resize", "%[WMSIZE]", ")",
   "-geometry", "+25+25",
   "-composite",
   tmpPath]

/-- Strips an expected literal from the front of the input, returning the
remainder. -/
def stripLit : List Char → List Char → Option (List Char)
  | [], s => some s
  | _ :: _, [] => none
  | p :: ps, c :: cs => if c = p then stripLit ps cs else none

/-- Reads a nonempty maximal run of decimal digits from the front of the
input, returning its value and the remainder. -/
def readDigitRun (s : List Char) : Option (Nat × List Char) :=
  if s.takeWhile isDigitChar = [] then none
  else some (digitsToNat (s.takeWhile isDigitChar), s.dropWhile isDigitChar)

/-- Parses an option:WMSIZE fx expression, returning the two divisors. -/
def parseWmSizeFx (s : String) : Option (Nat × Nat) :=
  match stripLit fxPre1 s.toList with
  | none => none
  | some s1 =>
      match readDigitRun s1 with
      | none => none
      | some (dw, s2) =>
          match stripLit fxMid s2 with
          | none => none
          | some s3 =>
              match readDigitRun s3 with
              | none => none
              | some (dh, s4) => if s4 = [']'] then some (dw, dh) else none

/-- Parses a plus-x-plus-y geometry offset. -/
def parseGeometry (s : String) : Option (Nat × Nat) :=
  match s.toList with
  | '+' :: s1 =>
      (match readDigitRun s1 with
      | none => none
      | some (x, s2) =>
          match s2 with
          | '+' :: s3 =>
              (match readDigitRun s3 with
              | some (y, []) => some (x, y)
              | _ => none)
          | _ => none)
  | _ => none

/-- The value following the first occurrence of key in an argument list. -/
def argAfter (key : String) : List String → Option String
  | [] => none
  | a :: rest => if a = key then rest.head? else argAfter key rest

/-- Modelled from the spec: the external image transform service (§6),
which is not part of this repository.  For a composite invocation it reads
the watermark target size from the option:WMSIZE fx expression
(per-dimension divisors of the page's width and height; §8 fixes the
divided size to the floor of the division) and the placement offset from
the -geometry argument, and composites the watermark at that offset with
that size.  Given the normalized page's pixel dimensions it returns the
offset and the watermark size. -/
def magickCompositeSem (args : List String) (w h : Nat) :
    Option ((Nat × Nat) × (Nat × Nat)) :=
  match argAfter "option:WMSIZE" args, argAfter "-geometry" args with
  | some e, some g =>
      if args.contains "-composite" then
        match parseWmSizeFx e, parseGeometry g with
        | some (dw, dh), some (x, y) =>
            if 0 < dw ∧ 0 < dh then some ((x, y), (w / dw, h / dh)) else none
        | _, _ => none
      else none
  | _, _ => none

/-! The directory walk (src/main.go 44-68).  filepath.WalkDir performs a
depth-first traversal; the callback skips directories, skips and logs files
whose extension is not in the accepted list, and sends every other file
path on the ingest channel.  Error-free traversals are modelled (a walk
error makes the program panic at line 65, before any further emission). -/

mutual
/-- A node of the directory tree: a file, or a directory with entries. -/
inductive FsTree
  | file (name : String)
  | dir (name : String) (entries : FsForest)
/-- The ordered entries of a directory. -/
inductive FsForest
  | nil
  | cons (t : FsTree) (f : FsForest)
end

/-- Scan used by filepath.Ext over the reversed path: walk backwards until
a dot (returning the dot and everything after it) or a path separator or
the start of the path (returning the empty extension). -/
def extScan : List Char → List Char → List Char
  | [], _ => []
  | c :: rest, acc =>
      if c = '/' then []
      else if c = '.' then '.' :: acc
      else extScan rest (c :: acc)

/-- filepath.Ext: the suffix beginning at the final dot in the final
slash-separated element of the path; empty when there is no dot. -/
def filepathExt (path : String) : String :=
  String.mk (extScan path.toList.reverse [])

/-- Path of an entry inside a parent directory, as built by WalkDir. -/
def joinPath (pre name : String) : String := pre ++ "/" ++ name

mutual
/-- The walk callback applied through one tree node: the emitted ingest
paths and the logged "skipping:" paths, in traversal order. -/
def walkTree (exts : List String) (pre : String) :
    FsTree → List String × List String
  | .file name =>
      if exts.contains (filepathExt (joinPath pre name)) then
        ([joinPath pre name], [])
      else ([], [joinPath pre name])
  | .dir name entries => walkForest exts (joinPath pre name) entries
/-- The walk through a directory's entries in order. -/
def walkForest (exts : List String) (pre : String) :
    FsForest → List String × List String
  | .nil => ([], [])
  | .cons t f =>
      ((walkTree exts pre t).1 ++ (walkForest exts pre f).1,
       (walkTree exts pre t).2 ++ (walkForest exts pre f).2)
end

/-- walkDirectorySearchPath (lines 44-68) on an error-free tree rooted at
the search directory: the root directory entry itself is skipped as a
directory, and its entries are walked recursively.  First component: paths
sent on the ingest channel; second: logged skipped files. -/
def walkDirectorySearchPath (exts : List String) (root : String)
    (entries : FsForest) : List String × List String :=
  walkForest exts root entries

mutual
/-- Specification-side enumeration: every file path under a node, with no
filtering; directories contribute no path of their own. -/
def allFilesTree (pre : String) : FsTree → List String
  | .file name => [joinPath pre name]
  | .dir name entries => allFilesForest (joinPath pre name) entries
/-- Specification-side enumeration over a directory's entries. -/
def allFilesForest (pre : String) : FsForest → List String
  | .nil => []
  | .cons t f => allFilesTree pre t ++ allFilesForest pre f
end


/-! The WaitGroup barrier of genProcessedPages (src/main.go 191-211). -/

/-- State of the synchronisation between the per-page goroutines and the
dispatcher for n pages: which tasks have terminated, the WaitGroup counter
(wg.Add(len(pages)) at line 196, wg.Done() at line 206 when a task ends),
and whether the dispatcher has returned from wg.Wait() (line 210). -/
structure DispatchState (n : Nat) where
  taskDone : Fin n → Bool
  counter : Nat
  returned : Bool

/-- The state on entry: no task finished, counter n, Wait pending. -/
def initDispatch (n : Nat) : DispatchState n :=
  ⟨fun _ => false, n, false⟩

/-- Interleaving semantics: either a still-running task terminates (with or
without error) and performs wg.Done, or wg.Wait observes a zero counter and
the dispatcher returns. -/
inductive DispatchStep (n : Nat) :
    DispatchState n → DispatchState n → Prop
  | finishTask (s : DispatchState n) (i : Fin n)
      (h : s.taskDone i = false) :
      DispatchStep n s
        ⟨fun j => if j = i then true else s.taskDone j, s.counter - 1,
          s.returned⟩
  | waitReturns (s : DispatchState n) (h : s.counter = 0) :
      DispatchStep n s ⟨s.taskDone, s.counter, true⟩

/-- States reachable from the initial state of a dispatch of n tasks. -/
inductive DispatchReachable (n : Nat) : DispatchState n → Prop
  | init : DispatchReachable n (initDispatch n)
  | step {s s' : DispatchState n} :
      DispatchReachable n s → DispatchStep n s s' → DispatchReachable n s'

/-- Whether an ingest outcome is the explicit error return that names the
offending filename ("no page number found in filename"). -/
def returnsNamedError : IngestResult → Bool
  | .errorReturn _ => true
  | _ => false

/-- Intermediate state of the one-page dispatch trace used by the C9
witness: the single task has finished and called Done. -/
def dispatchWitnessMid : DispatchState 1 :=
  ⟨fun j => if j = (0 : Fin 1) then true else (initDispatch 1).taskDone j,
    (initDispatch 1).counter - 1, (initDispatch 1).returned⟩

/-- Final state of the one-page dispatch trace used by the C9 witness:
wg.Wait has observed a zero counter and the dispatcher has returned. -/
def dispatchWitnessFinal : DispatchState 1 :=
  ⟨dispatchWitnessMid.taskDone, dispatchWitnessMid.counter, true⟩

/-! Structural lemmas about the matcher. -/

theorem isDotChar_of_isDigitChar {c : Char} (h : isDigitChar c = true) :
    isDotChar c = true := by
  rcases of_decide_eq_true h with ⟨h1, _⟩
  simp only [isDotChar, bne_iff_ne, ne_eq]
  intro hc
  subst hc
  simp at h1

theorem starMatch_head_digit (d : Char) (rest : List Char)
    (h : isDigitChar d = true) : starMatch (d :: rest) ≠ none := by
  have hd := isDotChar_of_isDigitChar h
  simp only [starMatch]
  rw [if_pos hd]
  cases hsr : starMatch rest with
  | some cap => simp
  | none => simp [h]

theorem starMatch_single (t : List Char) :
    ∀ cap, starMatch t = some cap → ∃ c, cap = [c] ∧ isDigitChar c = true := by
  induction t with
  | nil => intro cap h; simp [starMatch] at h
  | cons c rest ih =>
      intro cap h
      simp only [starMatch] at h
      by_cases hdot : isDotChar c = true
      · rw [if_pos hdot] at h
        cases hsr : starMatch rest with
        | some cap' =>
            rw [hsr] at h
            have h2 : some cap' = some cap := h
            exact Option.some_inj.mp h2 ▸ ih cap' hsr
        | none =>
            rw [hsr] at h
            have h2 : (if isDigitChar c = true then
                some ((c :: rest).takeWhile isDigitChar) else none) = some cap := h
            by_cases hdig : isDigitChar c = true
            · rw [if_pos hdig] at h2
              refine ⟨c, ?_, hdig⟩
              cases rest with
              | nil => simpa [List.takeWhile_cons, hdig] using h2.symm
              | cons d rest' =>
                  by_cases hd2 : isDigitChar d = true
                  · exact absurd hsr (starMatch_head_digit d rest' hd2)
                  · rw [List.takeWhile_cons, if_pos hdig, List.takeWhile_cons,
                      if_neg hd2] at h2
                    exact (Option.some_inj.mp h2).symm
            · rw [if_neg hdig] at h2
              exact absurd h2 (by simp)
      · rw [if_neg hdot] at h
        have h2 : (if isDigitChar c = true then
            some ((c :: rest).takeWhile isDigitChar) else none) = some cap := h
        have hdig : ¬ isDigitChar c = true := fun hx =>
          hdot (isDotChar_of_isDigitChar hx)
        rw [if_neg hdig] at h2
        exact absurd h2 (by simp)

theorem plusMatch_single (t : List Char) :
    ∀ cap, plusMatch t = some cap → ∃ c, cap = [c] ∧ isDigitChar c = true := by
  cases t with
  | nil => intro cap h; simp [plusMatch] at h
  | cons c rest =>
      intro cap h
      simp only [plusMatch] at h
      by_cases hdot : isDotChar c = true
      · rw [if_pos hdot] at h
        exact starMatch_single rest cap h
      · rw [if_neg hdot] at h
        exact absurd h (by simp)

theorem findStringSubmatch_single (f : List Char) :
    ∀ cap, findStringSubmatch f = some cap →
      ∃ c, cap = [c] ∧ isDigitChar c = true := by
  induction f with
  | nil => intro cap h; simp [findStringSubmatch] at h
  | cons c rest ih =>
      intro cap h
      simp only [findStringSubmatch] at h
      cases hp : plusMatch (c :: rest) with
      | some cap' =>
          rw [hp] at h
          have h2 : some cap' = some cap := h
          exact Option.some_inj.mp h2 ▸ plusMatch_single (c :: rest) cap' hp
      | none =>
          rw [hp] at h
          exact ih cap h

theorem lastDigit_some (t : List Char) :
    ∀ d, lastDigit t = some d → d ∈ t ∧ isDigitChar d = true := by
  induction t with
  | nil => intro d h; simp [lastDigit] at h
  | cons c rest ih =>
      intro d h
      simp only [lastDigit] at h
      cases hld : lastDigit rest with
      | some d' =>
          rw [hld] at h
          have h2 : some d' = some d := h
          obtain ⟨hmem, hdig⟩ := ih d' hld
          exact ⟨List.mem_cons_of_mem c (Option.some_inj.mp h2 ▸ hmem),
            Option.some_inj.mp h2 ▸ hdig⟩
      | none =>
          rw [hld] at h
          have h2 : (if isDigitChar c = true then some c else none) = some d := h
          by_cases hdig : isDigitChar c = true
          · rw [if_pos hdig] at h2
            exact ⟨Option.some_inj.mp h2 ▸ List.mem_cons_self c rest,
              Option.some_inj.mp h2 ▸ hdig⟩
          · rw [if_neg hdig] at h2
            exact absurd h2 (by simp)

theorem lastDigit_none (t : List Char) :
    lastDigit t = none → ∀ c ∈ t, isDigitChar c = false := by
  induction t with
  | nil => intro _ x hx; simp at hx
  | cons c rest ih =>
      intro h x hx
      simp only [lastDigit] at h
      cases hld : lastDigit rest with
      | some d => rw [hld] at h; exact absurd h (by simp)
      | none =>
          rw [hld] at h
          have h2 : (if isDigitChar c = true then some c else none) = none := h
          rcases List.mem_cons.mp hx with rfl | hx'
          · by_cases hdig : isDigitChar x = true
            · rw [if_pos hdig] at h2; exact absurd h2 (by simp)
            · exact eq_false_of_ne_true hdig
          · exact ih hld x hx'

theorem lastDigit_none_of_all (t : List Char)
    (h : ∀ c ∈ t, isDigitChar c = false) : lastDigit t = none := by
  induction t with
  | nil => rfl
  | cons c rest ih =>
      simp only [lastDigit]
      rw [ih (fun x hx => h x (List.mem_cons_of_mem c hx))]
      rw [if_neg (by rw [h c (List.mem_cons_self c rest)]; simp)]

theorem isDotChar_of_ne_newline {c : Char} (h : c ≠ '\n') : isDotChar c = true := by
  simp only [isDotChar, bne_iff_ne, ne_eq]
  exact h

theorem starMatch_lastDigit (t : List Char) (hnl : '\n' ∉ t) :
    starMatch t = (lastDigit t).map (fun d => [d]) := by
  induction t with
  | nil => rfl
  | cons c rest ih =>
      have hnlc : c ≠ '\n' := fun hc => hnl (hc ▸ List.mem_cons_self c rest)
      have hnlr : '\n' ∉ rest := fun hr => hnl (List.mem_cons_of_mem c hr)
      have hdot : isDotChar c = true := isDotChar_of_ne_newline hnlc
      simp only [starMatch, lastDigit]
      rw [if_pos hdot, ih hnlr]
      cases hld : lastDigit rest with
      | some d => simp
      | none =>
          simp only [Option.map_none']
          have hrest := lastDigit_none rest hld
          have htw : rest.takeWhile isDigitChar = [] := by
            cases rest with
            | nil => rfl
            | cons d r =>
                rw [List.takeWhile_cons,
                  if_neg (by rw [hrest d (List.mem_cons_self d r)]; simp)]
          by_cases hdig : isDigitChar c = true
          · simp [List.takeWhile_cons, hdig, htw]
          · simp [hdig]

theorem findStringSubmatch_lastDigit (f : List Char) (hnl : '\n' ∉ f) :
    findStringSubmatch f = (lastDigit f.tail).map (fun d => [d]) := by
  induction f with
  | nil => rfl
  | cons c rest ih =>
      have hnlc : c ≠ '\n' := fun hc => hnl (hc ▸ List.mem_cons_self c rest)
      have hnlr : '\n' ∉ rest := fun hr => hnl (List.mem_cons_of_mem c hr)
      have hdot : isDotChar c = true := isDotChar_of_ne_newline hnlc
      simp only [findStringSubmatch, plusMatch, List.tail_cons]
      rw [if_pos hdot, starMatch_lastDigit rest hnlr]
      cases hld : lastDigit rest with
      | some d => simp
      | none =>
          simp only [Option.map_none']
          rw [ih hnlr]
          rw [lastDigit_none_of_all _
            (fun x hx => lastDigit_none rest hld x (List.mem_of_mem_tail hx))]
          rfl

theorem digitsToNat_single (d : Char) : digitsToNat [d] = d.toNat - 48 := by
  simp [digitsToNat]

theorem atoiDigits_single (d : Char) (h : isDigitChar d = true) :
    atoiDigits [d] = some (d.toNat - 48) := by
  have hb := of_decide_eq_true h
  have hpow : (2 : Nat) ^ 63 = 9223372036854775808 := by norm_num
  have hv : digitsToNat [d] < 2 ^ 63 := by
    rw [digitsToNat_single, hpow]; omega
  simp only [atoiDigits, List.isEmpty, List.all, h, Bool.and_true, Bool.not_true,
    Bool.or_false, Bool.false_or]
  rw [if_neg (by simp [h]), if_pos hv, digitsToNat_single]

/-- Characterization of the per-filename extraction for newline-free
filenames: if the filename has a digit at some position other than the first
character, the loop body yields the value of the last digit occurring in the
filename (the final digit of the last digit run); otherwise the regexp does
not match and the body panics on the nil slice. -/
theorem indexFilename_lastDigit (f : List Char) (hnl : '\n' ∉ f) :
    indexFilename f = (match lastDigit f.tail with
      | some d => IndexOutcome.ok (d.toNat - 48)
      | none => IndexOutcome.panicNilSlice) := by
  have hf := findStringSubmatch_lastDigit f hnl
  cases hld : lastDigit f.tail with
  | some d =>
      rw [hld] at hf
      simp only [Option.map_some'] at hf
      obtain ⟨c, hc, hdig⟩ := findStringSubmatch_single f [d] hf
      have hdc : d = c := by
        have := List.head_eq_of_cons_eq hc
        exact this
      subst hdc
      simp only [indexFilename, hf]
      rw [if_neg (by simp), atoiDigits_single d hdig]
  | none =>
      rw [hld] at hf
      simp only [Option.map_none'] at hf
      simp [indexFilename, hf]

theorem digitChar_toNat (n : Nat) (h : n < 10) :
    (digitChar n).toNat = 48 + n := by
  interval_cases n <;> rfl

theorem isDigitChar_digitChar (n : Nat) (h : n < 10) :
    isDigitChar (digitChar n) = true := by
  interval_cases n <;> decide

theorem natDecimalAux_eq (n : Nat) :
    ∀ acc, natDecimalAux n acc = natDecimal n ++ acc := by
  induction n using Nat.strong_induction_on with
  | _ n ih =>
      intro acc
      by_cases h : n < 10
      · have e1 : natDecimalAux n acc = digitChar n :: acc := by
          rw [natDecimalAux, if_pos h]
        have e2 : natDecimalAux n [] = [digitChar n] := by
          rw [natDecimalAux, if_pos h]
        rw [natDecimal, e1, e2]
        rfl
      · have hlt : n / 10 < n := Nat.div_lt_self (by omega) (by omega)
        have e1 : natDecimalAux n acc
            = natDecimalAux (n / 10) (digitChar (n % 10) :: acc) := by
          rw [natDecimalAux, if_neg h]
        have e2 : natDecimalAux n []
            = natDecimalAux (n / 10) [digitChar (n % 10)] := by
          rw [natDecimalAux, if_neg h]
        rw [natDecimal, e1, e2, ih (n / 10) hlt, ih (n / 10) hlt]
        simp [List.append_assoc]

theorem natDecimal_ne_nil (n : Nat) : natDecimal n ≠ [] := by
  rw [natDecimal, natDecimalAux]
  by_cases h : n < 10
  · rw [if_pos h]; simp
  · rw [if_neg h, natDecimalAux_eq]; simp

theorem natDecimal_all_digits (n : Nat) :
    ∀ c ∈ natDecimal n, isDigitChar c = true := by
  induction n using Nat.strong_induction_on with
  | _ n ih =>
      intro c hc
      rw [natDecimal, natDecimalAux] at hc
      by_cases h : n < 10
      · rw [if_pos h] at hc
        rcases List.mem_cons.mp hc with rfl | hx
        · exact isDigitChar_digitChar n h
        · simp at hx
      · have hlt : n / 10 < n := Nat.div_lt_self (by omega) (by omega)
        rw [if_neg h, natDecimalAux_eq] at hc
        rcases List.mem_append.mp hc with hx | hx
        · exact ih (n / 10) hlt c hx
        · rcases List.mem_cons.mp hx with rfl | hx'
          · exact isDigitChar_digitChar (n % 10) (Nat.mod_lt n (by omega))
          · simp at hx'

theorem digitsToNat_append_single (l : List Char) (d : Char) :
    digitsToNat (l ++ [d]) = 10 * digitsToNat l + (d.toNat - 48) := by
  simp only [digitsToNat, List.foldl_append, List.foldl]
  omega

theorem digitsToNat_natDecimal (n : Nat) :
    digitsToNat (natDecimal n) = n := by
  induction n using Nat.strong_induction_on with
  | _ n ih =>
      by_cases h : n < 10
      · rw [natDecimal, natDecimalAux, if_pos h, digitsToNat_single,
          digitChar_toNat n h]
        omega
      · have hlt : n / 10 < n := Nat.div_lt_self (by omega) (by omega)
        rw [natDecimal, natDecimalAux, if_neg h, natDecimalAux_eq,
          digitsToNat_append_single, ih (n / 10) hlt,
          digitChar_toNat (n % 10) (Nat.mod_lt n (by omega))]
        omega

theorem takeWhile_append_of_all (p : Char → Bool) (l r : List Char)
    (hl : ∀ c ∈ l, p c = true) :
    (l ++ r).takeWhile p = l ++ r.takeWhile p := by
  induction l with
  | nil => rfl
  | cons c cs ih =>
      rw [List.cons_append, List.takeWhile_cons,
        if_pos (hl c (List.mem_cons_self c cs)),
        ih (fun x hx => hl x (List.mem_cons_of_mem c hx)), List.cons_append]

theorem dropWhile_append_of_all (p : Char → Bool) (l r : List Char)
    (hl : ∀ c ∈ l, p c = true) :
    (l ++ r).dropWhile p = r.dropWhile p := by
  induction l with
  | nil => rfl
  | cons c cs ih =>
      rw [List.cons_append, List.dropWhile_cons,
        if_pos (hl c (List.mem_cons_self c cs)),
        ih (fun x hx => hl x (List.mem_cons_of_mem c hx))]

theorem takeWhile_nil_of_head (p : Char → Bool) (c : Char) (cs : List Char)
    (h : p c = false) : (c :: cs).takeWhile p = [] := by
  rw [List.takeWhile_cons, if_neg (by rw [h]; simp)]

theorem stripLit_append (p s : List Char) : stripLit p (p ++ s) = some s := by
  induction p with
  | nil => rfl
  | cons c ps ih => rw [List.cons_append, stripLit, if_pos rfl, ih]

theorem readDigitRun_decimal (n : Nat) (rest : List Char)
    (hr : rest.takeWhile isDigitChar = []) :
    readDigitRun (natDecimal n ++ rest) = some (n, rest) := by
  have htw : (natDecimal n ++ rest).takeWhile isDigitChar = natDecimal n := by
    rw [takeWhile_append_of_all _ _ _ (natDecimal_all_digits n), hr,
      List.append_nil]
  have hdw : (natDecimal n ++ rest).dropWhile isDigitChar = rest := by
    rw [dropWhile_append_of_all _ _ _ (natDecimal_all_digits n)]
    cases rest with
    | nil => rfl
    | cons c cs =>
        rw [List.takeWhile_cons] at hr
        by_cases hc : isDigitChar c = true
        · rw [if_pos hc] at hr; exact absurd hr (by simp)
        · rw [List.dropWhile_cons, if_neg hc]
  rw [readDigitRun, htw, hdw, if_neg (natDecimal_ne_nil n),
    digitsToNat_natDecimal]

theorem parseWmSizeFx_wmSizeFx (scale : Int) (h : 1 ≤ scale) :
    parseWmSizeFx (wmSizeFx scale) = some (scale.toNat, scale.toNat) := by
  have hi : intDecimal scale = natDecimal scale.toNat := by
    rw [intDecimal, if_neg (by omega)]
  have hlist : (wmSizeFx scale).toList
      = fxPre1 ++ (natDecimal scale.toNat
        ++ (fxMid ++ (natDecimal scale.toNat ++ [']']))) := by
    show fxPre1 ++ intDecimal scale ++ fxMid ++ intDecimal scale ++ [']'] = _
    rw [hi]
    simp [List.append_assoc]
  have e1 : stripLit fxPre1 ((wmSizeFx scale).toList)
      = some (natDecimal scale.toNat
        ++ (fxMid ++ (natDecimal scale.toNat ++ [']']))) := by
    rw [hlist, stripLit_append]
  have hmid : ∀ Y : List Char, (fxMid ++ Y).takeWhile isDigitChar = [] := by
    intro Y
    rw [fxMid, List.cons_append]
    exact takeWhile_nil_of_head _ _ _ (by decide)
  have e2 : readDigitRun (natDecimal scale.toNat
      ++ (fxMid ++ (natDecimal scale.toNat ++ [']'])))
      = some (scale.toNat, fxMid ++ (natDecimal scale.toNat ++ [']'])) :=
    readDigitRun_decimal _ _ (hmid _)
  have e3 : stripLit fxMid (fxMid ++ (natDecimal scale.toNat ++ [']']))
      = some (natDecimal scale.toNat ++ [']']) := stripLit_append _ _
  have e4 : readDigitRun (natDecimal scale.toNat ++ [']'])
      = some (scale.toNat, [']']) :=
    readDigitRun_decimal _ _ (takeWhile_nil_of_head _ _ _ (by decide))
  simp only [parseWmSizeFx, e1, e2, e3, e4]
  simp

theorem wmSizeFx_ne_geometry (scale : Int) : wmSizeFx scale ≠ "-geometry" := by
  intro h
  have hd := congrArg String.data h
  have hlit : ("-geometry" : String).data
      = ['-', 'g', 'e', 'o', 'm', 'e', 't', 'r', 'y'] := rfl
  rw [hlit] at hd
  have : (wmSizeFx scale).data
      = fxPre1 ++ intDecimal scale ++ fxMid ++ intDecimal scale ++ [']'] := rfl
  rw [this] at hd
  rw [fxPre1] at hd
  simp at hd

theorem argAfter_wmsize (cfg : Config) (tmp : String)
    (h1 : tmp ≠ "option:WMSIZE") :
    argAfter "option:WMSIZE" (watermarkCmdArgs cfg tmp)
      = some (wmSizeFx cfg.watermarkImageScale) := by
  rw [watermarkCmdArgs, argAfter, if_neg h1, argAfter, if_neg (by decide),
    argAfter, if_neg (by decide), argAfter, if_neg (by decide),
    argAfter, if_pos rfl]
  rfl

theorem argAfter_geometry (cfg : Config) (tmp : String)
    (h2 : tmp ≠ "-geometry") (h3 : cfg.watermarkFilePath ≠ "-geometry") :
    argAfter "-geometry" (watermarkCmdArgs cfg tmp) = some "+25+25" := by
  rw [watermarkCmdArgs, argAfter, if_neg h2, argAfter, if_neg (by decide),
    argAfter, if_neg (by decide), argAfter, if_neg (by decide),
    argAfter, if_neg (by decide),
    argAfter, if_neg (wmSizeFx_ne_geometry cfg.watermarkImageScale),
    argAfter, if_neg (by decide), argAfter, if_neg h3,
    argAfter, if_neg (by decide), argAfter, if_neg (by decide),
    argAfter, if_neg (by decide), argAfter, if_pos rfl]
  rfl

theorem contains_composite (cfg : Config) (tmp : String) :
    (watermarkCmdArgs cfg tmp).contains "-composite" = true := by
  have hmem : "-composite" ∈ watermarkCmdArgs cfg tmp := by
    rw [watermarkCmdArgs]
    simp
  exact List.elem_eq_true_of_mem hmem

/-- The watermark invocation built by the source, interpreted through the
external image-service semantics, requests offset (25, 25) and size
(w over scale, h over scale) for a page of dimensions w times h. -/
theorem magickSem_watermarkCmdArgs (cfg : Config) (tmp : String) (w h : Nat)
    (hscale : 1 ≤ cfg.watermarkImageScale)
    (h1 : tmp ≠ "option:WMSIZE") (h2 : tmp ≠ "-geometry")
    (h3 : cfg.watermarkFilePath ≠ "-geometry") :
    magickCompositeSem (watermarkCmdArgs cfg tmp) w h
      = some ((25, 25), (w / cfg.watermarkImageScale.toNat,
          h / cfg.watermarkImageScale.toNat)) := by
  have hgeo : parseGeometry "+25+25" = some (25, 25) := by decide
  simp only [magickCompositeSem, argAfter_wmsize cfg tmp h1,
    argAfter_geometry cfg tmp h2 h3, contains_composite cfg tmp, if_true,
    parseWmSizeFx_wmSizeFx cfg.watermarkImageScale hscale, hgeo]
  rw [if_pos ⟨by omega, by omega⟩]

mutual
theorem walkTree_eq (exts : List String) (pre : String) (t : FsTree) :
    walkTree exts pre t
      = ((allFilesTree pre t).filter
          (fun p => exts.contains (filepathExt p)),
         (allFilesTree pre t).filter
          (fun p => !exts.contains (filepathExt p))) := by
  cases t with
  | file name =>
      rw [walkTree, allFilesTree]
      by_cases hc : exts.contains (filepathExt (joinPath pre name)) = true
      · rw [if_pos hc]
        have hmem : filepathExt (joinPath pre name) ∈ exts :=
          List.mem_of_elem_eq_true hc
        simp [List.filter_cons, hc, hmem]
      · rw [if_neg hc]
        have hc' : exts.contains (filepathExt (joinPath pre name)) = false := by
          cases hb : exts.contains (filepathExt (joinPath pre name))
          · rfl
          · exact absurd hb hc
        have hnmem : filepathExt (joinPath pre name) ∉ exts := fun hm =>
          hc (List.elem_eq_true_of_mem hm)
        simp [List.filter_cons, hc', hnmem]
  | dir name entries =>
      rw [walkTree, allFilesTree]
      exact walkForest_eq exts (joinPath pre name) entries

theorem walkForest_eq (exts : List String) (pre : String) (f : FsForest) :
    walkForest exts pre f
      = ((allFilesForest pre f).filter
          (fun p => exts.contains (filepathExt p)),
         (allFilesForest pre f).filter
          (fun p => !exts.contains (filepathExt p))) := by
  cases f with
  | nil => rfl
  | cons t f' =>
      rw [walkForest, allFilesForest,
        walkTree_eq exts pre t, walkForest_eq exts pre f']
      simp [List.filter_append]
end
theorem dispatch_invariant (n : Nat) (s : DispatchState n)
    (h : DispatchReachable n s) :
    s.counter
      = (Finset.univ.filter (fun i => s.taskDone i = false)).card ∧
    (s.returned = true → s.counter = 0) := by
  induction h with
  | init =>
      constructor
      · have : (Finset.univ.filter
            (fun i : Fin n => (initDispatch n).taskDone i = false))
            = Finset.univ := by
          apply Finset.filter_true_of_mem
          intro i _
          rfl
        rw [this, Finset.card_univ, Fintype.card_fin]
        rfl
      · intro hret
        exact absurd hret (by simp [initDispatch])
  | @step s s' hreach hstep ih =>
      cases hstep with
      | finishTask i hi =>
          obtain ⟨hcard, hret⟩ := ih
          have hmem : i ∈ Finset.univ.filter
              (fun j => s.taskDone j = false) :=
            Finset.mem_filter.mpr ⟨Finset.mem_univ i, hi⟩
          have hset : (Finset.univ.filter
              (fun j => (if j = i then true else s.taskDone j) = false))
              = (Finset.univ.filter (fun j => s.taskDone j = false)).erase i := by
            ext j
            simp only [Finset.mem_filter, Finset.mem_univ, true_and,
              Finset.mem_erase]
            by_cases hj : j = i
            · subst hj; simp
            · rw [if_neg hj]
              exact ⟨fun hh => ⟨hj, hh⟩, fun hh => hh.2⟩
          constructor
          · show s.counter - 1 = _
            rw [hset, Finset.card_erase_of_mem hmem, hcard]
          · intro hret'
            have h0 := hret hret'
            have : 0 < (Finset.univ.filter
                (fun j => s.taskDone j = false)).card :=
              Finset.card_pos.mpr ⟨i, hmem⟩
            omega
      | waitReturns h0 =>
          obtain ⟨hcard, _⟩ := ih
          exact ⟨hcard, fun _ => h0⟩

/-! Arithmetic of the sort comparator. -/

theorem wrap64_eq_self (z : Int) (h1 : -(2 ^ 63) ≤ z) (h2 : z < 2 ^ 63) :
    wrap64 z = z := by
  have h64 : (2 : Int) ^ 64 = 18446744073709551616 := by norm_num
  have h63 : (2 : Int) ^ 63 = 9223372036854775808 := by norm_num
  rw [wrap64]
  rw [Int.emod_eq_of_lt (by omega) (by omega)]
  omega

theorem pageCmp_le_zero_iff (a b : Page)
    (ha : 0 ≤ a.number ∧ a.number ≤ 9) (hb : 0 ≤ b.number ∧ b.number ≤ 9) :
    pageCmp a b ≤ 0 ↔ a.number ≤ b.number := by
  have h63 : (2 : Int) ^ 63 = 9223372036854775808 := by norm_num
  rw [pageCmp, wrap64_eq_self _ (by omega) (by omega)]
  omega

theorem chain_pageCmp_mono (l : List Page)
    (hr : ∀ p ∈ l, 0 ≤ p.number ∧ p.number ≤ 9)
    (hc : l.Chain' (fun a b => pageCmp a b ≤ 0)) :
    l.Chain' (fun a b => a.number ≤ b.number) := by
  induction l with
  | nil => exact List.chain'_nil
  | cons a l ih =>
      cases l with
      | nil => exact List.chain'_singleton a
      | cons b l' =>
          rw [List.chain'_cons] at hc ⊢
          refine ⟨?_, ih (fun p hp => hr p (List.mem_cons_of_mem a hp)) hc.2⟩
          exact (pageCmp_le_zero_iff a b
            (hr a (List.mem_cons_self a _))
            (hr b (List.mem_cons_of_mem a (List.mem_cons_self b _)))).mp hc.1

theorem indexFilename_ok_le9 (f : List Char) (n : Nat)
    (h : indexFilename f = .ok n) : n ≤ 9 := by
  unfold indexFilename at h
  cases hf : findStringSubmatch f with
  | none => rw [hf] at h; exact IndexOutcome.noConfusion h
  | some cap =>
      rw [hf] at h
      obtain ⟨c, rfl, hdig⟩ := findStringSubmatch_single f cap hf
      have h2 : (match atoiDigits [c] with
          | none => IndexOutcome.errAtoi
          | some n => IndexOutcome.ok n) = IndexOutcome.ok n := h
      rw [atoiDigits_single c hdig] at h2
      have h3 : IndexOutcome.ok (c.toNat - 48) = IndexOutcome.ok n := h2
      have hv := of_decide_eq_true hdig
      cases h3
      omega

theorem indexFilename_ne_errNoPageNumber (f : List Char) :
    ¬ indexFilename f = .errNoPageNumber := by
  intro h
  unfold indexFilename at h
  cases hf : findStringSubmatch f with
  | none => rw [hf] at h; exact IndexOutcome.noConfusion h
  | some cap =>
      rw [hf] at h
      obtain ⟨c, rfl, hdig⟩ := findStringSubmatch_single f cap hf
      have h2 : (match atoiDigits [c] with
          | none => IndexOutcome.errAtoi
          | some n => IndexOutcome.ok n) = IndexOutcome.errNoPageNumber := h
      rw [atoiDigits_single c hdig] at h2
      exact IndexOutcome.noConfusion h2

theorem ingestLoop_no_named_error (paths : List String) :
    ∀ acc, returnsNamedError (ingestLoop paths acc) = false := by
  induction paths with
  | nil => intro acc; rfl
  | cons path rest ih =>
      intro acc
      rw [ingestLoop]
      cases hidx : indexFilename ((filepathBase path).toList) with
      | ok n => exact ih _
      | errNoPageNumber =>
          exact absurd hidx (indexFilename_ne_errNoPageNumber _)
      | errAtoi => rfl
      | panicNilSlice => rfl

theorem ingestLoop_ok_range (paths : List String) :
    ∀ acc pages, (∀ p ∈ acc, 0 ≤ p.number ∧ p.number ≤ 9) →
      ingestLoop paths acc = .ok pages →
      ∀ p ∈ pages, 0 ≤ p.number ∧ p.number ≤ 9 := by
  induction paths with
  | nil =>
      intro acc pages hacc h
      have h2 : IngestResult.ok acc = IngestResult.ok pages := h
      cases h2
      exact hacc
  | cons path rest ih =>
      intro acc pages hacc h
      rw [ingestLoop] at h
      cases hidx : indexFilename ((filepathBase path).toList) with
      | ok n =>
          rw [hidx] at h
          refine ih _ pages ?_ h
          intro p hp
          rcases List.mem_append.mp hp with hp1 | hp2
          · exact hacc p hp1
          · have hpe : p = ⟨path, (n : Int), ""⟩ := by simpa using hp2
            subst hpe
            have hle := indexFilename_ok_le9 _ n hidx
            refine ⟨Int.ofNat_nonneg n, ?_⟩
            show (n : Int) ≤ 9
            exact_mod_cast hle
      | errNoPageNumber =>
          exact absurd hidx (indexFilename_ne_errNoPageNumber _)
      | errAtoi =>
          rw [hidx] at h
          exact IngestResult.noConfusion h
      | panicNilSlice =>
          rw [hidx] at h
          exact IngestResult.noConfusion h

/-! Claim theorems. -/

/-- C1, counterexample: the claim asserts that the Order Resolver is a
stable sort, but the sort is performed by slices.SortFunc, whose contract
only guarantees an ascending permutation; the output that reverses two
distinct pages sharing page number 1 satisfies everything the code
guarantees while breaking the claimed preservation of discovery order. -/
theorem sortFunc_stability_counterexample :
    SortFuncPost pageCmp
      [⟨"a.jpg", 1, ""⟩, ⟨"b.jpg", 1, ""⟩]
      [⟨"b.jpg", 1, ""⟩, ⟨"a.jpg", 1, ""⟩] ∧
    ¬ PreservesEqualOrder
      [⟨"a.jpg", 1, ""⟩, ⟨"b.jpg", 1, ""⟩]
      [⟨"b.jpg", 1, ""⟩, ⟨"a.jpg", 1, ""⟩] := by
  constructor
  · constructor
    · exact List.Perm.swap _ _ _
    · rw [List.chain'_cons]
      refine ⟨?_, List.chain'_singleton _⟩
      show wrap64 (1 - 1) ≤ 0
      rw [wrap64]
      norm_num
  · intro hpre
    exact absurd (hpre 1) (by decide)

/-- C1 (amended): the Order Resolver returns a permutation of the
accumulated pages that is sorted ascending by pageNumber (for the page
numbers the pipeline actually produces, the comparator's sign agrees with
the integer order); equal page numbers may appear in either order, since
slices.SortFunc does not guarantee stability. -/
theorem order_resolver_sorted_ascending (input output : List Page)
    (hrange : ∀ p ∈ input, 0 ≤ p.number ∧ p.number ≤ 9)
    (hpost : SortFuncPost pageCmp input output) :
    input.Perm output ∧
    output.Chain' (fun a b => a.number ≤ b.number) := by
  refine ⟨hpost.1, chain_pageCmp_mono output ?_ hpost.2⟩
  intro p hp
  exact hrange p (hpost.1.mem_iff.mpr hp)

/-- C1 witness: the amended theorem applied to a concrete sorted run. -/
theorem order_resolver_sorted_ascending_witness :
    ([⟨"a.jpg", 1, ""⟩, ⟨"b.jpg", 2, ""⟩] : List Page).Perm
      [⟨"a.jpg", 1, ""⟩, ⟨"b.jpg", 2, ""⟩] ∧
    ([⟨"a.jpg", 1, ""⟩, ⟨"b.jpg", 2, ""⟩] : List Page).Chain'
      (fun a b => a.number ≤ b.number) :=
  order_resolver_sorted_ascending
    [⟨"a.jpg", 1, ""⟩, ⟨"b.jpg", 2, ""⟩]
    [⟨"a.jpg", 1, ""⟩, ⟨"b.jpg", 2, ""⟩]
    (by decide)
    ⟨List.Perm.refl _, by
      rw [List.chain'_cons]
      refine ⟨?_, List.chain'_singleton _⟩
      show wrap64 (1 - 2) ≤ 0
      rw [wrap64]
      norm_num⟩

/-- C2, counterexample: the claim asserts that indexing "page12b.jpg"
yields page number 12 (the value of the last digit run); the code's regexp
captures only the final digit of that run, yielding 2. -/
theorem extraction_page12b_yields_2_not_12 :
    indexFilename ("page12b.jpg".toList) = IndexOutcome.ok 2 ∧
    indexFilename ("page12b.jpg".toList) ≠ IndexOutcome.ok 12 := by
  constructor
  · decide
  · decide

/-- C2 (amended): for newline-free filenames the extraction returns the
numeric value of the final digit of the last digit run (equivalently, of
the last digit occurring in the filename), provided a digit occurs beyond
the first character; "scan-007.jpg" yields 7, but "page12b.jpg" yields 2,
not 12.  When no such digit exists the regexp does not match and the code
panics (see C4). -/
theorem extraction_returns_final_digit_of_last_run (f : List Char)
    (hnl : '\n' ∉ f) :
    indexFilename f = (match lastDigit f.tail with
      | some d => IndexOutcome.ok (d.toNat - 48)
      | none => IndexOutcome.panicNilSlice) :=
  indexFilename_lastDigit f hnl

/-- C2 witness: the amended rule evaluated on the two filenames named by
the claim. -/
theorem extraction_returns_final_digit_of_last_run_witness :
    indexFilename ("scan-007.jpg".toList) = IndexOutcome.ok 7 ∧
    indexFilename ("page12b.jpg".toList) = IndexOutcome.ok 2 := by
  constructor
  · rw [extraction_returns_final_digit_of_last_run ("scan-007.jpg".toList)
      (by decide)]
    decide
  · rw [extraction_returns_final_digit_of_last_run ("page12b.jpg".toList)
      (by decide)]
    decide

/-- C3 (code bug): the spec mandates that bundling fail explicitly when a
page's workingPath is missing, but bundlePages performs no such check: on
a page list containing an empty tmpPath it still invokes the external
assembly, passing the empty string in the file list; in general the
invocation always happens, with every tmpPath passed through in order. -/
theorem bundler_invokes_without_completeness_check :
    bundlePages "out.pdf" [⟨"a1.jpg", 1, ""⟩, ⟨"a2.jpg", 2, "t2"⟩]
      = BundleResult.invoked ["--output", "out.pdf", "", "t2"] ∧
    ∀ out pages, ∃ args,
      bundlePages out pages = BundleResult.invoked args ∧
      args = "--output" :: out :: pages.map (fun p => p.tmpPath) := by
  constructor
  · rfl
  · intro out pages
    exact ⟨bundleCmdArgs out pages, rfl, rfl⟩

/-- C4 (code bug): the claim (and the code's own error message) intend an
error return naming the offending filename when a filename has no digit
run, but FindStringSubmatch then returns nil and the subscript matches[1]
panics before the guard can fire: ingesting "cover.jpg" panics, and the
named error return is unreachable for every input. -/
theorem no_digit_filename_panics_not_error :
    ingestLoop ["cover.jpg"] [] = IngestResult.panicked ∧
    ∀ paths acc, returnsNamedError (ingestLoop paths acc) = false := by
  constructor
  · decide
  · intro paths acc
    exact ingestLoop_no_named_error paths acc

/-- C5, counterexample: the claim asserts that a page whose transform
fails is left with an empty tmpPath, but createTempFile assigns tmpPath
before convert runs: a page whose convert invocation fails is logged with
its source path, yet its tmpPath already holds the allocated temp file. -/
theorem convert_failure_leaves_tmpPath_set :
    (runPageTask ⟨"", 4, 1500, 1500, "out.pdf", ".wd"⟩
        ⟨some "wd/tmp1.jpg", false, true⟩ ⟨"a1.jpg", 1, ""⟩).2
      = PageLog.errorProcessing "a1.jpg" ∧
    (runPageTask ⟨"", 4, 1500, 1500, "out.pdf", ".wd"⟩
        ⟨some "wd/tmp1.jpg", false, true⟩ ⟨"a1.jpg", 1, ""⟩).1.tmpPath
      = "wd/tmp1.jpg" ∧
    ("wd/tmp1.jpg" : String) ≠ "" := by
  refine ⟨by decide, by decide, by decide⟩

/-- C5 (amended): a per-page failure is caught and logged with the
originating source path, and each page's outcome depends only on that page
and its own external results (so sibling pages are unaffected); however
the failed page's tmpPath remains unset only when temp-file creation
itself failed — after a convert or watermark failure it already holds the
allocated temp path.  The source path of the record is never changed. -/
theorem per_page_failure_logged_and_tmpPath (cfg : Config)
    (env : TransformEnv) (p : Page) (envs envs' : List TransformEnv)
    (pages pages' : List Page) (i : Nat)
    (he : envs[i]? = envs'[i]?) (hp : pages[i]? = pages'[i]?) :
    ((runPageTask cfg env p).2 = PageLog.errorProcessing p.filepath ↔
      (generate cfg env p).errored = true) ∧
    (generate cfg env p).page.tmpPath
      = (match env.tempFile with
        | some name => name
        | none => p.tmpPath) ∧
    (generate cfg env p).page.filepath = p.filepath ∧
    (genProcessedPages cfg envs pages)[i]?
      = (genProcessedPages cfg envs' pages')[i]? := by
  refine ⟨?_, ?_, ?_, ?_⟩
  · simp only [runPageTask]
    cases herrb : (generate cfg env p).errored
    · rw [if_neg (by simp)]
      simp
    · rw [if_pos rfl]
      simp
  · rcases henv : env.tempFile with _ | name <;>
      cases hconv : env.convertOk <;> cases hwmk : env.watermarkOk <;>
        by_cases hwm : 0 < cfg.watermarkFilePath.length <;>
          simp [generate, createTempFile, henv, hconv, hwmk, hwm]
  · rcases henv : env.tempFile with _ | name <;>
      cases hconv : env.convertOk <;> cases hwmk : env.watermarkOk <;>
        by_cases hwm : 0 < cfg.watermarkFilePath.length <;>
          simp [generate, createTempFile, henv, hconv, hwmk, hwm]
  · rw [genProcessedPages, genProcessedPages, List.getElem?_zipWith',
      List.getElem?_zipWith', he, hp]

/-- C5 witness: the amended theorem applied to a page whose temp-file
creation fails, whose tmpPath therefore stays empty. -/
theorem per_page_failure_logged_and_tmpPath_witness :
    (generate ⟨"", 4, 1500, 1500, "o.pdf", ".wd"⟩ ⟨none, true, true⟩
        ⟨"a1.jpg", 1, ""⟩).page.tmpPath = "" :=
  (per_page_failure_logged_and_tmpPath ⟨"", 4, 1500, 1500, "o.pdf", ".wd"⟩
    ⟨none, true, true⟩ ⟨"a1.jpg", 1, ""⟩ [] [] [] [] 0 rfl rfl).2.1

/-- C6, counterexample: the claim asserts that temporary artifacts are
deleted whether bundling succeeds or fails, but when bundlePages returns
an error main returns before the removal loop: nothing is removed. -/
theorem bundle_error_skips_cleanup :
    mainCleanupRemovals true [⟨"a1.jpg", 1, "t1"⟩] = [] ∧
    ("t1" : String) ∉ mainCleanupRemovals true [⟨"a1.jpg", 1, "t1"⟩] := by
  refine ⟨by decide, by decide⟩

/-- C6 (amended): the cleanup loop runs only when bundling succeeded; it
then passes every page's tmpPath to os.Remove with the error discarded
(deletion failures are non-fatal); when bundling fails main returns early
and no temporary file is removed. -/
theorem cleanup_only_on_bundle_success (pages : List Page) :
    mainCleanupRemovals false pages = pages.map (fun p => p.tmpPath) ∧
    mainCleanupRemovals true pages = [] ∧
    ∀ p ∈ pages, p.tmpPath ∈ mainCleanupRemovals false pages := by
  have h1 : mainCleanupRemovals false pages
      = pages.map (fun p => p.tmpPath) := by
    rw [mainCleanupRemovals, if_neg (by simp)]
  refine ⟨h1, by rw [mainCleanupRemovals, if_pos rfl], ?_⟩
  intro p hp
  rw [h1]
  exact List.mem_map_of_mem _ hp

/-- C6 witness: the amended theorem applied to a successful bundle over
one page. -/
theorem cleanup_only_on_bundle_success_witness :
    ("t1" : String) ∈ mainCleanupRemovals false [⟨"a1.jpg", 1, "t1"⟩] :=
  (cleanup_only_on_bundle_success [⟨"a1.jpg", 1, "t1"⟩]).2.2
    ⟨"a1.jpg", 1, "t1"⟩ (by decide)

/-- C7: on an error-free walk the Path Discoverer emits exactly the
non-directory files under the tree whose extension (case-sensitive) is in
the accepted list, in traversal order; directories are never emitted, and
every non-matching file is skipped and logged rather than failing the
walk. -/
theorem discoverer_emits_exactly_matching_files (exts : List String)
    (root : String) (entries : FsForest) :
    (walkDirectorySearchPath exts root entries).1
      = (allFilesForest root entries).filter
          (fun p => exts.contains (filepathExt p)) ∧
    (walkDirectorySearchPath exts root entries).2
      = (allFilesForest root entries).filter
          (fun p => !exts.contains (filepathExt p)) ∧
    ∀ pth, pth ∈ (walkDirectorySearchPath exts root entries).1 ↔
      (pth ∈ allFilesForest root entries ∧
        exts.contains (filepathExt pth) = true) := by
  have h := walkForest_eq exts root entries
  refine ⟨?_, ?_, ?_⟩
  · rw [walkDirectorySearchPath, h]
  · rw [walkDirectorySearchPath, h]
  · intro pth
    rw [walkDirectorySearchPath, h]
    simp [List.mem_filter]

/-- C7 witness: the theorem applied to a concrete tree containing a
matching file, a non-matching file, and a subdirectory. -/
theorem discoverer_emits_exactly_matching_files_witness :
    (walkDirectorySearchPath [".jpg"] "d"
      (.cons (.file "a1.jpg")
        (.cons (.dir "sub" (.cons (.file "notes.txt") .nil)) .nil))).1
      = ["d/a1.jpg"] := by
  rw [(discoverer_emits_exactly_matching_files [".jpg"] "d"
    (.cons (.file "a1.jpg")
      (.cons (.dir "sub" (.cons (.file "notes.txt") .nil)) .nil))).1]
  decide

/-- C8, counterexample: the claim asserts the watermark sub-step runs if
and only if a watermark source is configured, but when the convert step of
a page fails the watermark is not attempted even though a watermark source
is configured. -/
theorem watermark_skipped_when_convert_fails :
    (generate ⟨"wm.png", 4, 1500, 1500, "out.pdf", ".wd"⟩
        ⟨some "t1.jpg", false, true⟩ ⟨"a1.jpg", 1, ""⟩).watermarkInvoked
      = false ∧
    0 < ("wm.png" : String).length := by
  refine ⟨by decide, by decide⟩

/-- C8 (amended): the watermark sub-step is invoked iff a watermark source
is configured and the page's temp-file creation and convert both
succeeded; when it is invoked, the constructed magick command — read
through the external image-service semantics — composites the watermark at
fixed offset (25, 25) from the top-left corner, sized to the page's width
and height each divided by the configured scale factor. -/
theorem watermark_invocation_and_parameters (cfg : Config)
    (env : TransformEnv) (p : Page) (tmp : String) (w h : Nat)
    (hscale : 1 ≤ cfg.watermarkImageScale)
    (h1 : tmp ≠ "option:WMSIZE") (h2 : tmp ≠ "-geometry")
    (h3 : cfg.watermarkFilePath ≠ "-geometry") :
    ((generate cfg env p).watermarkInvoked = true ↔
      (env.tempFile.isSome = true ∧ env.convertOk = true ∧
        0 < cfg.watermarkFilePath.length)) ∧
    magickCompositeSem (watermarkCmdArgs cfg tmp) w h
      = some ((25, 25), (w / cfg.watermarkImageScale.toNat,
          h / cfg.watermarkImageScale.toNat)) := by
  refine ⟨?_, magickSem_watermarkCmdArgs cfg tmp w h hscale h1 h2 h3⟩
  rcases henv : env.tempFile with _ | name <;>
    cases hconv : env.convertOk <;> cases hwmk : env.watermarkOk <;>
      by_cases hwm : 0 < cfg.watermarkFilePath.length <;>
        simp [generate, createTempFile, henv, hconv, hwmk, hwm]

/-- C8 witness: the amended theorem at scale 4 on a 1500 by 1500 page:
the watermark box is 375 by 375 at offset (25, 25). -/
theorem watermark_invocation_and_parameters_witness :
    magickCompositeSem
      (watermarkCmdArgs ⟨"wm.png", 4, 1500, 1500, "o.pdf", ".wd"⟩ "t1.jpg")
      1500 1500 = some ((25, 25), (375, 375)) := by
  have h := (watermark_invocation_and_parameters
    ⟨"wm.png", 4, 1500, 1500, "o.pdf", ".wd"⟩ ⟨some "t", true, true⟩
    ⟨"a1.jpg", 1, ""⟩ "t1.jpg" 1500 1500 (by decide) (by decide) (by decide)
    (by decide)).2
  rw [h]
  decide

/-- C9: the Transform Dispatcher's WaitGroup is a full barrier: in every
reachable state in which the dispatcher has returned from wg.Wait, every
dispatched task has terminated, so bundling can never start while a page
task is still running. -/
theorem dispatcher_full_barrier (n : Nat) (s : DispatchState n)
    (h : DispatchReachable n s) (hret : s.returned = true) :
    ∀ i, s.taskDone i = true := by
  obtain ⟨hcard, hret0⟩ := dispatch_invariant n s h
  have h0 := hret0 hret
  intro i
  have hcz : (Finset.univ.filter (fun j => s.taskDone j = false)).card
      = 0 := by omega
  have hempty := Finset.card_eq_zero.mp hcz
  by_contra hne
  have hfalse : s.taskDone i = false := by
    cases hb : s.taskDone i
    · rfl
    · exact absurd hb hne
  have hmem : i ∈ Finset.univ.filter (fun j => s.taskDone j = false) :=
    Finset.mem_filter.mpr ⟨Finset.mem_univ i, hfalse⟩
  rw [hempty] at hmem
  exact absurd hmem (Finset.not_mem_empty i)

/-- C9 witness: the barrier theorem applied to a concrete completed
one-page dispatch. -/
theorem dispatcher_full_barrier_witness :
    dispatchWitnessFinal.taskDone (0 : Fin 1) = true :=
  dispatcher_full_barrier 1 dispatchWitnessFinal
    (DispatchReachable.step
      (DispatchReachable.step DispatchReachable.init
        (DispatchStep.finishTask (initDispatch 1) 0 rfl))
      (DispatchStep.waitReturns dispatchWitnessMid rfl))
    rfl (0 : Fin 1)

/-- C10: whenever the page-number regexp matches a filename, the captured
text is exactly one decimal digit (the greedy prefix absorbs all but the
final digit of the last digit run), so every page record produced by the
ingestion loop carries a page number between 0 and 9 inclusive. -/
theorem captured_page_number_single_digit :
    (∀ f : List Char,
      ((findStringSubmatch f).all fun cap => cap.length == 1) = true) ∧
    (∀ paths pages, ingestLoop paths [] = .ok pages →
      ∀ p ∈ pages, 0 ≤ p.number ∧ p.number ≤ 9) := by
  constructor
  · intro f
    cases hf : findStringSubmatch f with
    | none => rfl
    | some cap =>
        obtain ⟨c, rfl, _⟩ := findStringSubmatch_single f cap hf
        rfl
  · intro paths pages h
    exact ingestLoop_ok_range paths [] pages (by simp) h

/-- C10 witness: the theorem applied to a concrete one-file ingestion. -/
theorem captured_page_number_single_digit_witness :
    0 ≤ (1 : Int) ∧ (1 : Int) ≤ 9 :=
  captured_page_number_single_digit.2 ["b/a1.jpg"]
    [⟨"b/a1.jpg", 1, ""⟩] (by decide) ⟨"b/a1.jpg", 1, ""⟩ (by decide)

end Watermarker
